import Mathlib

/-!
Shallow embedding of the `lsp-textdocument` crate
(`src/text_document.rs`, `src/text_documents.rs`).

Modelling conventions:
* Rust `String` / `&str` values become `List Char`; all offsets are UTF-8
  byte offsets computed from per-character byte sizes, exactly as Rust's
  `char_indices` exposes them.
* `u32`/`usize` values become `Nat`; the crate converts lengths with
  `try_into().expect(..)`, i.e. it aborts rather than wraps, so no modular
  arithmetic arises.  The two saturating operations used by `update`
  (`i32::saturating_sub_unsigned`, `u32::saturating_add_signed`) are modelled
  with their explicit clamping bounds.
* Rust panics (`assert!`, `panic!`, out-of-bounds indexing, out-of-range
  `Vec::splice`) become `Except UpdateError _` results so that fallible
  control flow is explicit.
-/

/-- Byte size of a character in UTF-8, as in Rust's `char::len_utf8`. -/
def utf8Len (c : Char) : Nat :=
  if c.toNat < 0x80 then 1
  else if c.toNat < 0x800 then 2
  else if c.toNat < 0x10000 then 3
  else 4

/-- Code-unit size of a character in UTF-16, as in Rust's `char::len_utf16`. -/
def utf16Len (c : Char) : Nat :=
  if c.toNat < 0x10000 then 1 else 2

/-- UTF-8 byte length of a string (`str::len`). -/
def byteLen : List Char → Nat
  | [] => 0
  | c :: cs => utf8Len c + byteLen cs

/-- UTF-16 code-unit length of a string. -/
def utf16Size : List Char → Nat
  | [] => 0
  | c :: cs => utf16Len c + utf16Size cs

/-- The characters of `cs` lying in the byte range `[0, n)`; models slicing
`&s[..n]` at a character-boundary byte offset `n`. -/
def byteTake : Nat → List Char → List Char
  | _, [] => []
  | n, c :: cs => if utf8Len c ≤ n then c :: byteTake (n - utf8Len c) cs else []

/-- The characters of `cs` lying at byte offsets `≥ n`; models slicing
`&s[n..]` at a character-boundary byte offset `n`. -/
def byteDrop : Nat → List Char → List Char
  | _, [] => []
  | n, c :: cs => if utf8Len c ≤ n ∧ 0 < n then byteDrop (n - utf8Len c) cs else c :: cs

/-- Byte offset of the start of the `k`-th character of `cs`
(equivalently, the byte length of the first `k` characters). -/
def byteUpto (k : Nat) (cs : List Char) : Nat := byteLen (cs.take k)

/-- UTF-16 length of the first `k` characters of `cs`. -/
def u16Upto (k : Nat) (cs : List Char) : Nat := utf16Size (cs.take k)

/-- `n` is a UTF-8 character-boundary byte offset of `cs`. -/
def CharBoundary (cs : List Char) (n : Nat) : Prop :=
  ∃ k, k ≤ cs.length ∧ n = byteUpto k cs

/-- `lsp_types::Position` (line and UTF-16 character, both `u32`). -/
structure Position where
  line : Nat
  character : Nat
deriving DecidableEq, Repr

/-- `lsp_types::Range`.  The Rust field `end` is a Lean keyword and is
rendered `endPos`. -/
structure Range where
  start : Position
  endPos : Position
deriving DecidableEq, Repr

/-- `lsp_types::TextDocumentContentChangeEvent`. -/
structure TextDocumentContentChangeEvent where
  range : Option Range
  range_length : Option Nat
  text : List Char
deriving DecidableEq, Repr

/-- The character-indices scan of `computed_line_offsets` (the `while let`
loop of `text_document.rs:23-34`): emits the byte offset just past each line
terminator, where `\r\n` (detected by the one-character peek) is consumed as
a single terminator.  `idx` is the absolute byte index of the head of the
remaining text. -/
def lineOffsetsGo : List Char → Nat → List Nat
  | [], _ => []
  | '\r' :: '\n' :: cs, idx => (idx + 2) :: lineOffsetsGo cs (idx + 2)
  | '\r' :: cs, idx => (idx + 1) :: lineOffsetsGo cs (idx + 1)
  | '\n' :: cs, idx => (idx + 1) :: lineOffsetsGo cs (idx + 1)
  | c :: cs, idx => lineOffsetsGo cs (idx + utf8Len c)

/-- `computed_line_offsets` (`text_document.rs:15-37`). -/
def computedLineOffsets (text : List Char) (is_at_line_start : Bool)
    (text_offset : Option Nat) : List Nat :=
  let textOffset := text_offset.getD 0
  (if is_at_line_start then [textOffset] else []) ++ lineOffsetsGo text textOffset

/-- The loop of `line_offset_utf16` (`text_document.rs:49-58`): walks the
line's characters, stopping at the first character whose byte span crosses
`offset` or starts at it, accumulating UTF-16 widths.  `idx` is the absolute
byte index of the head. -/
def lineOffsetUtf16Go : List Char → Nat → Nat → Nat
  | [], _, _ => 0
  | c :: cs, idx, offset =>
    if idx + utf8Len c > offset ∨ idx = offset then 0
    else utf16Len c + lineOffsetUtf16Go cs (idx + utf8Len c) offset

/-- `line_offset_utf16` (`text_document.rs:49-58`). -/
def line_offset_utf16 (line : List Char) (offset : Nat) : Nat :=
  lineOffsetUtf16Go line 0 offset

/-- `FullTextDocument` (`text_document.rs:3-13`). -/
structure FullTextDocument where
  language_id : String
  version : Int
  content : List Char
  line_offsets : List Nat
deriving DecidableEq, Repr

/-- The panics that can be raised inside `update` /
`find_canonical_position`, surfaced as error values. -/
inductive UpdateError where
  /-- The `panic!("could not determine canonical value …")` branch of
  `find_canonical_position` (`text_document.rs:148`). -/
  | canonicalAbort (position : Position) : UpdateError
  /-- An out-of-bounds `self.line_offsets[..]` index inside
  `find_canonical_position`. -/
  | indexAbort : UpdateError
  /-- The `assert!(start_offset <= end_offset, "Start offset must be less
  than end offset …")` contract violation (`text_document.rs:80-85`),
  carrying both canonical positions and both resolved offsets. -/
  | rangeViolation (start endPos : Position) (startOffset endOffset : Nat) : UpdateError
  /-- The `assert!(start_line <= end_line)` (`text_document.rs:90`). -/
  | lineViolation : UpdateError
  /-- An out-of-range `Vec::splice` (`text_document.rs:95-96`). -/
  | spliceAbort : UpdateError
deriving DecidableEq, Repr

/-- `i32::saturating_sub_unsigned` applied as on `text_document.rs:98-99`
(`text.len() as i32` is in `i32` range because the crate aborts on contents
longer than `u32`). -/
def i32SatSubUnsigned (a : Int) (b : Nat) : Int :=
  max (-(2 ^ 31)) (min (2 ^ 31 - 1) (a - (b : Int)))

/-- `u32::saturating_add_signed` (`text_document.rs:104`). -/
def u32SatAddSigned (v : Nat) (d : Int) : Nat :=
  (min (max ((v : Int) + d) 0) (2 ^ 32 - 1)).toNat

/-- The character walk of `offset_at` (`text_document.rs:285-293`):
returns `offset + idx` for the first character at which the accumulated
UTF-16 width `c` equals `character`, and `offset + line.len()` if the walk
falls through.  `absIdx` carries `offset + idx`. -/
def offsetAtGo : List Char → Nat → Nat → Nat → Nat
  | [], _, absIdx, _ => absIdx
  | ch :: cs, character, absIdx, c =>
    if c = character then absIdx
    else offsetAtGo cs character (absIdx + utf8Len ch) (c + utf16Len ch)

/-- The binary-search loop of `position_at` (`text_document.rs:245-258`),
with its termination measure `hi - lo` made explicit as a structural fuel
argument (each iteration shrinks `hi - lo`, so `fuel = hi - lo` always
suffices; `positionAtSearch` supplies it).  The Rust code reads
`line_offsets[mid]` with `.expect`, which never fails because
`mid < hi ≤ line_count`; `getD _ 0` is that total reading. -/
def positionAtSearchGo (l : List Nat) (offset : Nat) : Nat → Nat → Nat → Nat
  | 0, lo, _ => lo
  | fuel + 1, lo, hi =>
    if lo < hi then
      let mid := (lo + hi) / 2
      if offset > l.getD mid 0 then positionAtSearchGo l offset fuel (mid + 1) hi
      else positionAtSearchGo l offset fuel lo mid
    else lo

/-- The `while low < high` search of `position_at` over `[lo, hi)`. -/
def positionAtSearch (l : List Nat) (offset : Nat) (lo hi : Nat) : Nat :=
  positionAtSearchGo l offset (hi - lo) lo hi

namespace FullTextDocument

/-- `FullTextDocument::new` (`text_document.rs:61-69`). -/
def new (language_id : String) (version : Int) (content : List Char) :
    FullTextDocument :=
  { language_id := language_id
    version := version
    content := content
    line_offsets := computedLineOffsets content true none }

/-- `FullTextDocument::content_len` (`text_document.rs:222-227`). -/
def content_len (d : FullTextDocument) : Nat := byteLen d.content

/-- `FullTextDocument::line_count` (`text_document.rs:214-219`). -/
def line_count (d : FullTextDocument) : Nat := d.line_offsets.length

/-- `FullTextDocument::get_line_and_offset` (`text_document.rs:200-207`). -/
def get_line_and_offset (d : FullTextDocument) (line : Nat) :
    Option (List Char × Nat) :=
  (d.line_offsets.get? line).map fun lineOffset =>
    let eolOffset := (d.line_offsets.get? (line + 1)).getD d.content_len
    (byteDrop lineOffset (byteTake eolOffset d.content), lineOffset)

/-- `FullTextDocument::get_line` (`text_document.rs:209-211`). -/
def get_line (d : FullTextDocument) (line : Nat) : Option (List Char) :=
  (d.get_line_and_offset line).map Prod.fst

/-- `FullTextDocument::offset_at` (`text_document.rs:281-303`). -/
def offset_at (d : FullTextDocument) (position : Position) : Nat :=
  match d.get_line_and_offset position.line with
  | some (line, offset) => offsetAtGo line position.character offset 0
  | none => if position.line ≥ d.line_count then d.content_len else 0

/-- `FullTextDocument::position_at` (`text_document.rs:234-277`).  The Rust
`get_line(..).unwrap()` calls never fail on the taken branches; `getD _ []`
is the corresponding total reading. -/
def position_at (d : FullTextDocument) (offset : Nat) : Position :=
  let offset := min offset d.content_len
  let lineCount := d.line_count
  if lineCount = 1 then
    { line := 0, character := line_offset_utf16 ((d.get_line 0).getD []) offset }
  else
    let low := positionAtSearch d.line_offsets offset 0 lineCount
    if low = 0 then
      { line := 0, character := line_offset_utf16 ((d.get_line 0).getD []) offset }
    else
      let line := low - 1
      { line := line
        character := line_offset_utf16 ((d.get_line line).getD [])
          (offset - d.line_offsets.getD line 0) }

/-- `FullTextDocument::find_canonical_position` (`text_document.rs:126-156`).
Note the source's `self.content.chars().nth(offset as usize - 1)`: `offset`
is a byte offset but `nth` counts characters, which `List.get?` on the
character list reproduces faithfully. -/
def find_canonical_position (d : FullTextDocument) (position : Position) :
    Except UpdateError (Position × Nat) :=
  let offset := d.offset_at position
  if offset = 0 then
    .ok ({ line := 0, character := 0 }, 0)
  else if d.content.get? (offset - 1) = some '\n' then
    match d.line_offsets.get? position.line with
    | none => .error .indexAbort
    | some v =>
      if v = offset then .ok (position, offset)
      else
        match d.line_offsets.get? (position.line + 1) with
        | none => .error .indexAbort
        | some v2 =>
          if v2 = offset then
            .ok ({ line := position.line + 1, character := 0 }, offset)
          else .error (.canonicalAbort position)
  else .ok (position, offset)

/-- One iteration of the `for change in changes` loop of
`FullTextDocument::update` (`text_document.rs:72-117`). -/
def applyChange (d : FullTextDocument) (change : TextDocumentContentChangeEvent) :
    Except UpdateError FullTextDocument :=
  match change.range with
  | none =>
    -- Full replacement (`text_document.rs:108-115`).
    .ok { d with
          content := change.text
          line_offsets := computedLineOffsets change.text true none }
  | some range =>
    match d.find_canonical_position range.start with
    | .error e2 => .error e2
    | .ok (start, startOffset) =>
      match d.find_canonical_position range.endPos with
      | .error e2 => .error e2
      | .ok (endP, endOffset) =>
        if startOffset ≤ endOffset then
          let content :=
            byteTake startOffset d.content ++ change.text ++ byteDrop endOffset d.content
          if start.line ≤ endP.line then
            let addedLineOffsets := computedLineOffsets change.text false (some startOffset)
            let spliceStart := start.line + 1
            if endP.line + 1 ≤ d.line_offsets.length then
              let spliced :=
                d.line_offsets.take spliceStart ++ addedLineOffsets
                  ++ d.line_offsets.drop (endP.line + 1)
              let diff := i32SatSubUnsigned (byteLen change.text) (endOffset - startOffset)
              let shiftFrom := spliceStart + addedLineOffsets.length
              let lineOffsets :=
                if diff ≠ 0 then
                  spliced.take shiftFrom
                    ++ (spliced.drop shiftFrom).map (fun v => u32SatAddSigned v diff)
                else spliced
              .ok { d with content := content, line_offsets := lineOffsets }
            else .error .spliceAbort
          else .error .lineViolation
        else .error (.rangeViolation start endP startOffset endOffset)

/-- `FullTextDocument::update` (`text_document.rs:71-120`): folds
`applyChange` over the changes, then sets the version to the caller-supplied
value. -/
def update (d : FullTextDocument) (changes : List TextDocumentContentChangeEvent)
    (version : Int) : Except UpdateError FullTextDocument :=
  (changes.foldlM applyChange d).map fun d2 => { d2 with version := version }

end FullTextDocument

/-- `TextDocuments` (`text_documents.rs:12`): the `BTreeMap<Uri, _>` is
modelled as an association list keyed by the uri string. -/
structure TextDocuments where
  docs : List (String × FullTextDocument)
deriving Repr

/-- Replace the value stored at key `k` (the effect of mutating through
`BTreeMap::get_mut`). -/
def entryReplace (k : String) (v : FullTextDocument) :
    List (String × FullTextDocument) → List (String × FullTextDocument)
  | [] => []
  | (k2, v2) :: rest =>
    if k2 = k then (k2, v) :: rest else (k2, v2) :: entryReplace k v rest

/-- `BTreeMap::insert` (replaces any existing entry for the key). -/
def entryInsert (k : String) (v : FullTextDocument) :
    List (String × FullTextDocument) → List (String × FullTextDocument)
  | [] => [(k, v)]
  | (k2, v2) :: rest =>
    if k2 = k then (k2, v) :: rest else (k2, v2) :: entryInsert k v rest

/-- `BTreeMap::remove`. -/
def entryRemove (k : String) :
    List (String × FullTextDocument) → List (String × FullTextDocument)
  | [] => []
  | (k2, v2) :: rest =>
    if k2 = k then rest else (k2, v2) :: entryRemove k rest

/-- A protocol notification after successful deserialization: the typed
payloads `TextDocuments::listen` dispatches on (`text_documents.rs:109-147`).
Payload parsing itself (`serde_json::from_value`) is outside the model. -/
inductive StoreEvent where
  | didOpen (uri : String) (language_id : String) (version : Int) (text : List Char)
  | didChange (uri : String) (contentChanges : List TextDocumentContentChangeEvent)
      (version : Int)
  | didClose (uri : String)
  | other (method : String)

/-- `TextDocuments::listen` (`text_documents.rs:109-147`), one arm per
method string; returns the store and the `bool` the Rust function returns.
A panic inside `FullTextDocument::update` surfaces as the `Except` error. -/
def TextDocuments.listen (store : TextDocuments) (event : StoreEvent) :
    Except UpdateError (TextDocuments × Bool) :=
  match event with
  | .didOpen uri language_id version text =>
    .ok ({ docs := entryInsert uri (FullTextDocument.new language_id version text) store.docs },
      true)
  | .didChange uri contentChanges version =>
    match store.docs.lookup uri with
    | none => .ok (store, true)
    | some document =>
      (document.update contentChanges version).map fun d2 =>
        ({ docs := entryReplace uri d2 store.docs }, true)
  | .didClose uri => .ok ({ docs := entryRemove uri store.docs }, true)
  | .other _ => .ok (store, false)

/-- The document's line-offset table is exactly what a from-scratch scan of
its content produces (this is how `FullTextDocument::new` builds it). -/
def Wf (d : FullTextDocument) : Prop :=
  d.line_offsets = computedLineOffsets d.content true none

instance (d : FullTextDocument) : Decidable (Wf d) := by
  unfold Wf; infer_instance

/-! ### Concrete documents used by counterexamples and witnesses -/

/-- The document of the spec's line-terminator example and of the crate's
own test fixture (`full_text_document()`). -/
def specDoc : FullTextDocument := .new "js" 2 "he\nllo\nworld\r\nfoo\rbar".data

/-- A document whose only terminator is a lone `\r`. -/
def c1Doc : FullTextDocument := .new "txt" 0 "foo\rbar".data

/-- An insertion of `"x"` at the position just past the lone-`\r` terminator
of `c1Doc` (offset 4, the start of line 1, written as `(0,4)`). -/
def c1Edit : TextDocumentContentChangeEvent :=
  { range := some { start := ⟨0, 4⟩, endPos := ⟨0, 4⟩ }, range_length := none
    text := "x".data }

/-- The state `update` actually produces from `c1Doc` and `c1Edit`. -/
def c1After : FullTextDocument :=
  { language_id := "txt", version := 1, content := "foo\rxbar".data
    line_offsets := [0, 5] }

/-- A second lone-`\r` document for the invariant claim. -/
def c6Doc : FullTextDocument := .new "txt" 3 "ab\rcd".data

/-- Insertion of `"z"` at offset 3 (start of line 1), written as `(0,3)`. -/
def c6Edit : TextDocumentContentChangeEvent :=
  { range := some { start := ⟨0, 3⟩, endPos := ⟨0, 3⟩ }, range_length := none
    text := "z".data }

/-- The state `update` actually produces from `c6Doc` and `c6Edit`. -/
def c6After : FullTextDocument :=
  { language_id := "txt", version := 7, content := "ab\rzcd".data
    line_offsets := [0, 4] }

/-- `"𐐷 yee"`: the crate's supplementary-plane test content (U+10437 takes
four UTF-8 bytes and two UTF-16 code units). -/
def smpDoc : FullTextDocument := .new "js" 2 (Char.ofNat 0x10437 :: " yee".data)

/-- A two-line ASCII document. -/
def c3Doc : FullTextDocument := .new "t" 0 "ab\ncd".data

/-- A three-line ASCII document (for the invalid-range scenario). -/
def c7Doc : FullTextDocument := .new "t" 0 "he\nllo\nworld".data

/-- A three-line document whose first character is multi-byte. -/
def c10Doc : FullTextDocument := .new "t" 0 ('€' :: "a\nbb\nc".data)

/-- A two-line document with a multi-byte character on line 0 (for the
round-trip witness). -/
def w2Doc : FullTextDocument := .new "t" 0 ('a' :: 'é' :: "\nb".data)

/-- A one-entry store (for the unknown-identifier witness). -/
def w9Store : TextDocuments := { docs := [("file://a", c3Doc)] }

/-! ### Helper lemmas: byte sizes and boundary arithmetic -/

theorem utf8Len_pos (c : Char) : 0 < utf8Len c := by
  unfold utf8Len
  repeat' split
  all_goals omega

theorem utf16Len_pos (c : Char) : 0 < utf16Len c := by
  unfold utf16Len
  split
  all_goals omega

theorem byteLen_append (a b : List Char) :
    byteLen (a ++ b) = byteLen a + byteLen b := by
  induction a with
  | nil => simp [byteLen]
  | cons c cs ih => simp [byteLen, ih]; omega

theorem utf16Size_append (a b : List Char) :
    utf16Size (a ++ b) = utf16Size a + utf16Size b := by
  induction a with
  | nil => simp [utf16Size]
  | cons c cs ih => simp [utf16Size, ih]; omega

theorem byteUpto_zero (cs : List Char) : byteUpto 0 cs = 0 := rfl

theorem byteUpto_nil (k : Nat) : byteUpto k [] = 0 := by
  simp [byteUpto, byteLen]

theorem byteUpto_succ_cons (k : Nat) (c : Char) (cs : List Char) :
    byteUpto (k + 1) (c :: cs) = utf8Len c + byteUpto k cs := rfl

theorem byteUpto_of_length_le {k : Nat} {cs : List Char} (h : cs.length ≤ k) :
    byteUpto k cs = byteLen cs := by
  simp [byteUpto, List.take_of_length_le h]

theorem byteLen_take_le (j : Nat) (cs : List Char) :
    byteLen (cs.take j) ≤ byteLen cs := by
  conv_rhs => rw [← List.take_append_drop j cs]
  rw [byteLen_append]
  omega

theorem byteUpto_le_byteLen (k : Nat) (cs : List Char) :
    byteUpto k cs ≤ byteLen cs := byteLen_take_le k cs

theorem byteUpto_mono {j k : Nat} (cs : List Char) (h : j ≤ k) :
    byteUpto j cs ≤ byteUpto k cs := by
  have h1 : (cs.take k).take j = cs.take j := by
    rw [List.take_take]
    exact congrArg (cs.take ·) (Nat.min_eq_left h)
  calc byteUpto j cs = byteLen ((cs.take k).take j) := by rw [h1]; rfl
    _ ≤ byteLen (cs.take k) := byteLen_take_le j (cs.take k)

theorem byteUpto_succ_eq {j : Nat} {cs : List Char} (hj : j < cs.length) :
    byteUpto (j + 1) cs = byteUpto j cs + utf8Len cs[j] := by
  unfold byteUpto
  rw [List.take_succ, byteLen_append, List.getElem?_eq_getElem hj]
  simp [byteLen]

theorem byteUpto_strict_mono {j k : Nat} {cs : List Char} (hjk : j < k)
    (hj : j < cs.length) : byteUpto j cs < byteUpto k cs := by
  have h1 := byteUpto_succ_eq hj
  have h2 : byteUpto (j + 1) cs ≤ byteUpto k cs := byteUpto_mono cs hjk
  have h3 := utf8Len_pos cs[j]
  omega

theorem le_of_byteUpto_le {a m : Nat} {cs : List Char} (ha : a ≤ cs.length)
    (h : byteUpto a cs ≤ byteUpto m cs) : a ≤ m := by
  by_contra hc
  have hma : m < a := by omega
  have := byteUpto_strict_mono hma (by omega : m < cs.length)
  omega

theorem u16Upto_zero (cs : List Char) : u16Upto 0 cs = 0 := rfl

theorem u16Upto_succ_cons (k : Nat) (c : Char) (cs : List Char) :
    u16Upto (k + 1) (c :: cs) = utf16Len c + u16Upto k cs := rfl

theorem utf16Size_take_le (j : Nat) (cs : List Char) :
    utf16Size (cs.take j) ≤ utf16Size cs := by
  conv_rhs => rw [← List.take_append_drop j cs]
  rw [utf16Size_append]
  omega

theorem u16Upto_le_utf16Size (k : Nat) (cs : List Char) :
    u16Upto k cs ≤ utf16Size cs := utf16Size_take_le k cs

theorem u16Upto_mono {j k : Nat} (cs : List Char) (h : j ≤ k) :
    u16Upto j cs ≤ u16Upto k cs := by
  have h1 : (cs.take k).take j = cs.take j := by
    rw [List.take_take]
    exact congrArg (cs.take ·) (Nat.min_eq_left h)
  calc u16Upto j cs = utf16Size ((cs.take k).take j) := by rw [h1]; rfl
    _ ≤ utf16Size (cs.take k) := utf16Size_take_le j (cs.take k)

theorem byteTake_byteUpto : ∀ (k : Nat) (cs : List Char),
    byteTake (byteUpto k cs) cs = cs.take k := by
  intro k cs
  induction cs generalizing k with
  | nil => simp [byteUpto_nil, byteTake]
  | cons c cs ih =>
    cases k with
    | zero =>
      rw [byteUpto_zero]
      unfold byteTake
      rw [if_neg (by have := utf8Len_pos c; omega)]
      rfl
    | succ k =>
      rw [byteUpto_succ_cons]
      unfold byteTake
      rw [if_pos (by omega)]
      have h1 : utf8Len c + byteUpto k cs - utf8Len c = byteUpto k cs := by omega
      rw [h1, ih]
      rfl

theorem byteDrop_zero : ∀ (cs : List Char), byteDrop 0 cs = cs := by
  intro cs
  cases cs with
  | nil => rfl
  | cons c cs =>
    unfold byteDrop
    rw [if_neg (by omega)]

theorem byteDrop_byteUpto : ∀ (k : Nat) (cs : List Char),
    byteDrop (byteUpto k cs) cs = cs.drop k := by
  intro k cs
  induction cs generalizing k with
  | nil => simp [byteUpto_nil, byteDrop]
  | cons c cs ih =>
    cases k with
    | zero => rw [byteUpto_zero, byteDrop_zero]; rfl
    | succ k =>
      rw [byteUpto_succ_cons]
      unfold byteDrop
      rw [if_pos (by have := utf8Len_pos c; omega)]
      have h1 : utf8Len c + byteUpto k cs - utf8Len c = byteUpto k cs := by omega
      rw [h1, ih]
      rfl

theorem byteLen_span {a b : Nat} (cs : List Char) (hab : a ≤ b) :
    byteLen ((cs.take b).drop a) = byteUpto b cs - byteUpto a cs := by
  have h1 : cs.take b = (cs.take b).take a ++ (cs.take b).drop a :=
    (List.take_append_drop a (cs.take b)).symm
  have h2 : (cs.take b).take a = cs.take a := by
    rw [List.take_take]
    exact congrArg (cs.take ·) (Nat.min_eq_left hab)
  have h3 : byteUpto b cs = byteUpto a cs + byteLen ((cs.take b).drop a) := by
    unfold byteUpto
    conv_lhs => rw [h1]
    rw [byteLen_append, h2]
  omega

theorem span_take {a m b : Nat} (cs : List Char) (ham : a ≤ m) (hmb : m ≤ b) :
    ((cs.take b).drop a).take (m - a) = (cs.take m).drop a := by
  rw [List.take_drop]
  have h1 : a + (m - a) = m := by omega
  rw [h1, List.take_take]
  exact congrArg (fun x => (cs.take x).drop a) (Nat.min_eq_left hmb)

theorem byteUpto_span {a m b : Nat} (cs : List Char) (ham : a ≤ m) (hmb : m ≤ b) :
    byteUpto (m - a) ((cs.take b).drop a) = byteUpto m cs - byteUpto a cs := by
  unfold byteUpto
  rw [span_take cs ham hmb]
  exact byteLen_span cs ham

/-! ### Helper lemmas: the character walks of the conversions -/

/-- `line_offset_utf16`'s walk maps the byte offset of the `k`-th character
boundary to the UTF-16 length of the first `k` characters. -/
theorem lineOffsetUtf16Go_boundary : ∀ (cs : List Char) (k idx : Nat),
    k ≤ cs.length →
    lineOffsetUtf16Go cs idx (idx + byteUpto k cs) = u16Upto k cs := by
  intro cs
  induction cs with
  | nil =>
    intro k idx _
    simp [lineOffsetUtf16Go, u16Upto, utf16Size]
  | cons c cs ih =>
    intro k idx hk
    cases k with
    | zero =>
      rw [byteUpto_zero, Nat.add_zero]
      unfold lineOffsetUtf16Go
      rw [if_pos (Or.inr rfl)]
      rfl
    | succ k =>
      have hk2 : k ≤ cs.length := by
        simp only [List.length_cons] at hk
        omega
      rw [byteUpto_succ_cons]
      unfold lineOffsetUtf16Go
      rw [if_neg (by have := utf8Len_pos c; omega)]
      have harg : idx + (utf8Len c + byteUpto k cs) =
          (idx + utf8Len c) + byteUpto k cs := by omega
      rw [harg, ih k (idx + utf8Len c) hk2, u16Upto_succ_cons]

/-- `offset_at`'s walk, asked for the UTF-16 width of the first `k`
characters, stops exactly at the `k`-th character boundary. -/
theorem offsetAtGo_boundary : ∀ (cs : List Char) (k base c0 : Nat),
    k ≤ cs.length →
    offsetAtGo cs (c0 + u16Upto k cs) base c0 = base + byteUpto k cs := by
  intro cs
  induction cs with
  | nil =>
    intro k base c0 _
    simp [offsetAtGo, u16Upto, utf16Size, byteUpto_nil]
  | cons c cs ih =>
    intro k base c0 hk
    cases k with
    | zero =>
      rw [u16Upto_zero, Nat.add_zero, byteUpto_zero, Nat.add_zero]
      unfold offsetAtGo
      rw [if_pos rfl]
    | succ k =>
      have hk2 : k ≤ cs.length := by
        simp only [List.length_cons] at hk
        omega
      rw [u16Upto_succ_cons, byteUpto_succ_cons]
      unfold offsetAtGo
      rw [if_neg (by have := utf16Len_pos c; omega)]
      have harg : c0 + (utf16Len c + u16Upto k cs) =
          (c0 + utf16Len c) + u16Upto k cs := by omega
      rw [harg, ih k (base + utf8Len c) (c0 + utf16Len c) hk2]
      omega

/-- If the requested `character` is not the UTF-16 width of any proper
prefix of the line, `offset_at`'s walk falls through and returns
`offset + line.len()`. -/
theorem offsetAtGo_fallthrough : ∀ (cs : List Char) (character base c0 : Nat),
    (∀ j, j < cs.length → c0 + u16Upto j cs ≠ character) →
    offsetAtGo cs character base c0 = base + byteLen cs := by
  intro cs
  induction cs with
  | nil =>
    intro character base c0 _
    simp [offsetAtGo, byteLen]
  | cons c cs ih =>
    intro character base c0 h
    have h0 : c0 ≠ character := by
      have := h 0 (by simp)
      rwa [u16Upto_zero, Nat.add_zero] at this
    unfold offsetAtGo
    rw [if_neg h0]
    rw [ih character (base + utf8Len c) (c0 + utf16Len c) ?_]
    · simp [byteLen]; omega
    · intro j hj
      have := h (j + 1) (by simp only [List.length_cons]; omega)
      rw [u16Upto_succ_cons] at this
      intro hc
      exact this (by omega)

/-! ### Helper lemmas: the line-terminator scan -/

theorem utf8Len_cr : utf8Len '\r' = 1 := rfl

theorem utf8Len_lf : utf8Len '\n' = 1 := rfl

/-- Consuming `\r\n` in one step lands in the same state as consuming the
`\r` alone and rescanning from the `\n`. -/
theorem lineOffsetsGo_shift (cs : List Char) (idx : Nat) :
    lineOffsetsGo ('\r' :: '\n' :: cs) idx = lineOffsetsGo ('\n' :: cs) (idx + 1) := rfl

theorem lineOffsetsGo_cr {cs : List Char} (idx : Nat) (h : cs.head? ≠ some '\n') :
    lineOffsetsGo ('\r' :: cs) idx = (idx + 1) :: lineOffsetsGo cs (idx + 1) := by
  refine lineOffsetsGo.eq_3 idx cs ?_
  intro cs1 hcs
  exact h (by rw [hcs]; rfl)

theorem lineOffsetsGo_other {c : Char} (cs : List Char) (idx : Nat)
    (h1 : c ≠ '\r') (h2 : c ≠ '\n') :
    lineOffsetsGo (c :: cs) idx = lineOffsetsGo cs (idx + utf8Len c) := by
  refine lineOffsetsGo.eq_5 idx c cs ?_ ?_ ?_
  · intro _ hc _; exact h1 hc
  · exact h1
  · exact h2

/-- Every scan output is the byte offset of a character boundary strictly
inside `(idx, idx + byteLen cs]`. -/
theorem lineOffsetsGo_mem_bound : ∀ (cs : List Char) (idx x : Nat),
    x ∈ lineOffsetsGo cs idx →
    ∃ k, 0 < k ∧ k ≤ cs.length ∧ x = idx + byteUpto k cs := by
  intro cs
  induction cs with
  | nil => intro idx x hx; simp [lineOffsetsGo] at hx
  | cons c cs ih =>
    intro idx x hx
    by_cases hc : c = '\r'
    · subst hc
      by_cases hh : cs.head? = some '\n'
      · cases cs with
        | nil => simp at hh
        | cons c2 cs2 =>
          have hc2 : c2 = '\n' := by simpa using hh
          subst hc2
          rw [lineOffsetsGo_shift] at hx
          obtain ⟨k, hk0, hkl, hxv⟩ := ih (idx + 1) x hx
          refine ⟨k + 1, by omega, by simp only [List.length_cons] at hkl ⊢; omega, ?_⟩
          rw [byteUpto_succ_cons, utf8Len_cr]
          omega
      · rw [lineOffsetsGo_cr idx hh] at hx
        rcases List.mem_cons.mp hx with h | h
        · refine ⟨1, by omega, by simp, ?_⟩
          rw [show byteUpto 1 ('\r' :: cs) = 1 from rfl]
          omega
        · obtain ⟨k, hk0, hkl, hxv⟩ := ih (idx + 1) x h
          refine ⟨k + 1, by omega, by simp only [List.length_cons]; omega, ?_⟩
          rw [byteUpto_succ_cons, utf8Len_cr]
          omega
    · by_cases hn : c = '\n'
      · subst hn
        rw [lineOffsetsGo.eq_4] at hx
        rcases List.mem_cons.mp hx with h | h
        · refine ⟨1, by omega, by simp, ?_⟩
          rw [show byteUpto 1 ('\n' :: cs) = 1 from rfl]
          omega
        · obtain ⟨k, hk0, hkl, hxv⟩ := ih (idx + 1) x h
          refine ⟨k + 1, by omega, by simp only [List.length_cons]; omega, ?_⟩
          rw [byteUpto_succ_cons, utf8Len_lf]
          omega
      · rw [lineOffsetsGo_other cs idx hc hn] at hx
        obtain ⟨k, hk0, hkl, hxv⟩ := ih (idx + utf8Len c) x hx
        refine ⟨k + 1, by omega, by simp only [List.length_cons]; omega, ?_⟩
        rw [byteUpto_succ_cons]
        omega

/-- The scan outputs are strictly increasing, and strictly above any base
`b ≤ idx`. -/
theorem lineOffsetsGo_chain : ∀ (cs : List Char) (idx b : Nat), b ≤ idx →
    List.Chain' (· < ·) (b :: lineOffsetsGo cs idx) := by
  intro cs
  induction cs with
  | nil => intro idx b _; simp [lineOffsetsGo]
  | cons c cs ih =>
    intro idx b hb
    by_cases hc : c = '\r'
    · subst hc
      by_cases hh : cs.head? = some '\n'
      · cases cs with
        | nil => simp at hh
        | cons c2 cs2 =>
          have hc2 : c2 = '\n' := by simpa using hh
          subst hc2
          rw [lineOffsetsGo_shift]
          exact ih (idx + 1) b (by omega)
      · rw [lineOffsetsGo_cr idx hh]
        exact List.chain'_cons.mpr ⟨by omega, ih (idx + 1) (idx + 1) (by omega)⟩
    · by_cases hn : c = '\n'
      · subst hn
        rw [lineOffsetsGo.eq_4]
        exact List.chain'_cons.mpr ⟨by omega, ih (idx + 1) (idx + 1) (by omega)⟩
      · rw [lineOffsetsGo_other cs idx hc hn]
        exact ih (idx + utf8Len c) b (by have := utf8Len_pos c; omega)

theorem get?_zero_eq_head? (cs : List Char) : cs.get? 0 = cs.head? := by
  cases cs <;> rfl

/-- The terminator rule as a membership characterization: the scan emits
exactly the offsets just past each `\n`, and just past each `\r` that is not
immediately followed by `\n` (so a `\r\n` pair contributes exactly one
boundary, recorded after its `\n`). -/
theorem lineOffsetsGo_mem_iff : ∀ (cs : List Char) (idx x : Nat),
    x ∈ lineOffsetsGo cs idx ↔
      ∃ k, k < cs.length ∧ x = idx + byteUpto (k + 1) cs ∧
        (cs.get? k = some '\n' ∨
          (cs.get? k = some '\r' ∧ cs.get? (k + 1) ≠ some '\n')) := by
  intro cs
  induction cs with
  | nil => intro idx x; simp [lineOffsetsGo]
  | cons c cs ih =>
    intro idx x
    by_cases hc : c = '\r'
    · subst hc
      by_cases hh : cs.head? = some '\n'
      · cases cs with
        | nil => simp at hh
        | cons c2 cs2 =>
          have hc2 : c2 = '\n' := by simpa using hh
          subst hc2
          rw [lineOffsetsGo_shift]
          constructor
          · intro hx
            obtain ⟨k, hk, hxv, hP⟩ := (ih (idx + 1) x).mp hx
            refine ⟨k + 1, by simp only [List.length_cons] at hk ⊢; omega, ?_, hP⟩
            have hb := byteUpto_succ_cons (k + 1) '\r' ('\n' :: cs2)
            rw [utf8Len_cr] at hb
            omega
          · rintro ⟨k, hk, hxv, hP⟩
            cases k with
            | zero =>
              rcases hP with h | ⟨_, h2⟩
              · rw [show ('\r' :: '\n' :: cs2).get? 0 = some '\r' from rfl] at h
                exact absurd (Option.some.inj h) (by decide)
              · exact absurd rfl h2
            | succ k =>
              refine (ih (idx + 1) x).mpr
                ⟨k, by simp only [List.length_cons] at hk ⊢; omega, ?_, hP⟩
              have hb := byteUpto_succ_cons (k + 1) '\r' ('\n' :: cs2)
              rw [utf8Len_cr] at hb
              omega
      · rw [lineOffsetsGo_cr idx hh]
        constructor
        · intro hx
          rcases List.mem_cons.mp hx with h | h
          · refine ⟨0, by simp, by rw [show byteUpto 1 ('\r' :: cs) = 1 from rfl]; omega, ?_⟩
            refine Or.inr ⟨rfl, ?_⟩
            show cs.get? 0 ≠ some '\n'
            rw [get?_zero_eq_head?]
            exact hh
          · obtain ⟨k, hk, hxv, hP⟩ := (ih (idx + 1) x).mp h
            refine ⟨k + 1, by simp only [List.length_cons]; omega, ?_, hP⟩
            have hb := byteUpto_succ_cons (k + 1) '\r' cs
            rw [utf8Len_cr] at hb
            omega
        · rintro ⟨k, hk, hxv, hP⟩
          cases k with
          | zero =>
            rw [show byteUpto 1 ('\r' :: cs) = 1 from rfl] at hxv
            exact List.mem_cons.mpr (Or.inl (by omega))
          | succ k =>
            refine List.mem_cons.mpr (Or.inr ?_)
            refine (ih (idx + 1) x).mpr
              ⟨k, by simp only [List.length_cons] at hk ⊢; omega, ?_, hP⟩
            have hb := byteUpto_succ_cons (k + 1) '\r' cs
            rw [utf8Len_cr] at hb
            omega
    · by_cases hn : c = '\n'
      · subst hn
        rw [lineOffsetsGo.eq_4]
        constructor
        · intro hx
          rcases List.mem_cons.mp hx with h | h
          · exact ⟨0, by simp, by rw [show byteUpto 1 ('\n' :: cs) = 1 from rfl]; omega,
              Or.inl rfl⟩
          · obtain ⟨k, hk, hxv, hP⟩ := (ih (idx + 1) x).mp h
            refine ⟨k + 1, by simp only [List.length_cons]; omega, ?_, hP⟩
            have hb := byteUpto_succ_cons (k + 1) '\n' cs
            rw [utf8Len_lf] at hb
            omega
        · rintro ⟨k, hk, hxv, hP⟩
          cases k with
          | zero =>
            rw [show byteUpto 1 ('\n' :: cs) = 1 from rfl] at hxv
            exact List.mem_cons.mpr (Or.inl (by omega))
          | succ k =>
            refine List.mem_cons.mpr (Or.inr ?_)
            refine (ih (idx + 1) x).mpr
              ⟨k, by simp only [List.length_cons] at hk ⊢; omega, ?_, hP⟩
            have hb := byteUpto_succ_cons (k + 1) '\n' cs
            rw [utf8Len_lf] at hb
            omega
      · rw [lineOffsetsGo_other cs idx hc hn]
        constructor
        · intro hx
          obtain ⟨k, hk, hxv, hP⟩ := (ih (idx + utf8Len c) x).mp hx
          refine ⟨k + 1, by simp only [List.length_cons]; omega, ?_, hP⟩
          have hb := byteUpto_succ_cons (k + 1) c cs
          omega
        · rintro ⟨k, hk, hxv, hP⟩
          cases k with
          | zero =>
            rcases hP with h | ⟨h1, _⟩
            · exact absurd (Option.some.inj h) hn
            · exact absurd (Option.some.inj h1) hc
          | succ k =>
            refine (ih (idx + utf8Len c) x).mpr
              ⟨k, by simp only [List.length_cons] at hk ⊢; omega, ?_, hP⟩
            have hb := byteUpto_succ_cons (k + 1) c cs
            omega

/-! ### Helper lemmas: the binary search of position_at -/

/-- With a strictly sorted table and enough fuel, the search returns the
least index `r` of `[lo, hi]` such that every entry below `r` is `< offset`
and every entry in `[r, hi)` is `≥ offset`. -/
theorem positionAtSearchGo_spec :
    ∀ (fuel : Nat) (l : List Nat) (offset lo hi : Nat),
    hi - lo ≤ fuel → lo ≤ hi → hi ≤ l.length → List.Pairwise (· < ·) l →
    lo ≤ positionAtSearchGo l offset fuel lo hi ∧
    positionAtSearchGo l offset fuel lo hi ≤ hi ∧
    (∀ j, lo ≤ j → j < positionAtSearchGo l offset fuel lo hi →
      l.getD j 0 < offset) ∧
    (∀ j, positionAtSearchGo l offset fuel lo hi ≤ j → j < hi →
      offset ≤ l.getD j 0) := by
  intro fuel
  induction fuel with
  | zero =>
    intro l offset lo hi hf hlh _ _
    have heq : lo = hi := by omega
    subst heq
    refine ⟨Nat.le_refl lo, Nat.le_refl lo, ?_, ?_⟩
    · intro j hj hjr
      rw [show positionAtSearchGo l offset 0 lo lo = lo from rfl] at hjr
      omega
    · intro j hjr hjhi
      rw [show positionAtSearchGo l offset 0 lo lo = lo from rfl] at hjr
      omega
  | succ fuel ih =>
    intro l offset lo hi hf hlh hhl hp
    have hpg := List.pairwise_iff_getElem.mp hp
    by_cases h : lo < hi
    · have hmlo : lo ≤ (lo + hi) / 2 := by omega
      have hmhi : (lo + hi) / 2 < hi := by omega
      have hmlen : (lo + hi) / 2 < l.length := by omega
      by_cases hcmp : offset > l.getD ((lo + hi) / 2) 0
      · have hstep : positionAtSearchGo l offset (fuel + 1) lo hi =
            positionAtSearchGo l offset fuel ((lo + hi) / 2 + 1) hi := by
          simp only [positionAtSearchGo]
          rw [if_pos h, if_pos hcmp]
        obtain ⟨h1, h2, h3, h4⟩ :=
          ih l offset ((lo + hi) / 2 + 1) hi (by omega) (by omega) hhl hp
        rw [hstep]
        refine ⟨by omega, h2, ?_, h4⟩
        intro j hj hjr
        by_cases hjm : j < (lo + hi) / 2
        · have hjlen : j < l.length := by omega
          have := hpg j ((lo + hi) / 2) hjlen hmlen hjm
          rw [List.getD_eq_getElem l 0 hjlen]
          rw [List.getD_eq_getElem l 0 hmlen] at hcmp
          omega
        · by_cases hje : j = (lo + hi) / 2
          · subst hje; omega
          · exact h3 j (by omega) hjr
      · have hstep : positionAtSearchGo l offset (fuel + 1) lo hi =
            positionAtSearchGo l offset fuel lo ((lo + hi) / 2) := by
          simp only [positionAtSearchGo]
          rw [if_pos h, if_neg hcmp]
        obtain ⟨h1, h2, h3, h4⟩ :=
          ih l offset lo ((lo + hi) / 2) (by omega) (by omega) (by omega) hp
        rw [hstep]
        refine ⟨h1, by omega, h3, ?_⟩
        intro j hjr hjhi
        by_cases hjm : j < (lo + hi) / 2
        · exact h4 j hjr hjm
        · have hjlen : j < l.length := by omega
          rw [List.getD_eq_getElem l 0 hjlen]
          rw [List.getD_eq_getElem l 0 hmlen] at hcmp
          by_cases hje : j = (lo + hi) / 2
          · subst hje; omega
          · have := hpg ((lo + hi) / 2) j hmlen hjlen (by omega)
            omega
    · have hstep : positionAtSearchGo l offset (fuel + 1) lo hi = lo := by
        unfold positionAtSearchGo
        rw [if_neg h]
      rw [hstep]
      exact ⟨Nat.le_refl lo, hlh, fun j hj hjr => by omega,
        fun j hjr hjhi => by omega⟩

/-- The search characterization at the call site of `position_at`
(`lo = 0`, `hi = l.length`, exact fuel). -/
theorem positionAtSearch_spec (l : List Nat) (offset : Nat)
    (hp : List.Pairwise (· < ·) l) :
    positionAtSearch l offset 0 l.length ≤ l.length ∧
    (∀ j, j < positionAtSearch l offset 0 l.length → l.getD j 0 < offset) ∧
    (∀ j, positionAtSearch l offset 0 l.length ≤ j → j < l.length →
      offset ≤ l.getD j 0) := by
  obtain ⟨h1, h2, h3, h4⟩ := positionAtSearchGo_spec (l.length - 0) l offset 0
    l.length (by omega) (by omega) (by omega) hp
  exact ⟨h2, fun j hj => h3 j (by omega) hj, h4⟩

/-! ### Helper lemmas: well-formed line-offset tables -/

theorem computedLineOffsets_true_none (text : List Char) :
    computedLineOffsets text true none = 0 :: lineOffsetsGo text 0 := rfl

theorem wf_pairwise {d : FullTextDocument} (hwf : Wf d) :
    List.Pairwise (· < ·) d.line_offsets := by
  rw [hwf, computedLineOffsets_true_none]
  exact List.chain'_iff_pairwise.mp (lineOffsetsGo_chain d.content 0 0 (Nat.le_refl 0))

theorem wf_head {d : FullTextDocument} (hwf : Wf d) :
    d.line_offsets.get? 0 = some 0 := by
  rw [hwf, computedLineOffsets_true_none]
  rfl

theorem wf_length_pos {d : FullTextDocument} (hwf : Wf d) : 0 < d.line_count := by
  unfold FullTextDocument.line_count
  rw [hwf, computedLineOffsets_true_none]
  simp

theorem wf_entry_boundary {d : FullTextDocument} (hwf : Wf d) {v : Nat}
    (hv : v ∈ d.line_offsets) :
    ∃ a, a ≤ d.content.length ∧ v = byteUpto a d.content := by
  rw [hwf, computedLineOffsets_true_none] at hv
  rcases List.mem_cons.mp hv with h | h
  · exact ⟨0, by omega, by rw [h, byteUpto_zero]⟩
  · obtain ⟨k, _, hkl, hx⟩ := lineOffsetsGo_mem_bound d.content 0 v h
    exact ⟨k, hkl, by omega⟩

/-- For a well-formed document and an in-range line index, `get_line_and_offset`
returns the byte slice between two character-boundary offsets of the content:
the line's start entry and the next entry (or `content_len` on the last
line). -/
theorem get_line_and_offset_wf (d : FullTextDocument) (hwf : Wf d) (i : Nat)
    (hi : i < d.line_count) :
    ∃ a b, a ≤ b ∧ b ≤ d.content.length ∧
      d.line_offsets.get? i = some (byteUpto a d.content) ∧
      (d.line_offsets.get? (i + 1)).getD d.content_len = byteUpto b d.content ∧
      d.get_line_and_offset i =
        some ((d.content.take b).drop a, byteUpto a d.content) := by
  have hilen : i < d.line_offsets.length := hi
  have hge : d.line_offsets.get? i = some d.line_offsets[i] := by
    rw [List.get?_eq_getElem?]
    exact List.getElem?_eq_getElem hilen
  obtain ⟨a, hal, hav⟩ := wf_entry_boundary hwf (List.get?_mem hge)
  have hpg := List.pairwise_iff_getElem.mp (wf_pairwise hwf)
  -- the end-of-line offset
  by_cases hnext : i + 1 < d.line_offsets.length
  · have hge2 : d.line_offsets.get? (i + 1) = some d.line_offsets[i + 1] := by
      rw [List.get?_eq_getElem?]
      exact List.getElem?_eq_getElem hnext
    obtain ⟨b, hbl, hbv⟩ := wf_entry_boundary hwf (List.get?_mem hge2)
    have hlt : d.line_offsets[i] < d.line_offsets[i + 1] :=
      hpg i (i + 1) hilen hnext (by omega)
    have hab : a ≤ b := by
      refine le_of_byteUpto_le hal ?_
      omega
    refine ⟨a, b, hab, hbl, by rw [hge, hav], by rw [hge2, hbv]; rfl, ?_⟩
    unfold FullTextDocument.get_line_and_offset
    rw [hge, hav]
    simp only [Option.map_some']
    have he : (d.line_offsets.get? (i + 1)).getD d.content_len =
        byteUpto b d.content := by rw [hge2, hbv]; rfl
    rw [he]
    have ht : byteTake (byteUpto b d.content) d.content = d.content.take b :=
      byteTake_byteUpto b d.content
    have hs : byteUpto a d.content = byteUpto a (d.content.take b) := by
      unfold byteUpto
      rw [List.take_take]
      rw [Nat.min_eq_left hab]
    rw [ht, hs, byteDrop_byteUpto a (d.content.take b)]
  · have hge2 : d.line_offsets.get? (i + 1) = none :=
      List.get?_eq_none.mpr (by omega)
    have hab : a ≤ d.content.length := hal
    refine ⟨a, d.content.length, ?_, Nat.le_refl _, by rw [hge, hav], ?_, ?_⟩
    · exact hal
    · rw [hge2]
      show d.content_len = byteUpto d.content.length d.content
      rw [byteUpto_of_length_le (Nat.le_refl _)]
      rfl
    · unfold FullTextDocument.get_line_and_offset
      rw [hge, hav]
      simp only [Option.map_some']
      rw [hge2]
      have he : (none : Option Nat).getD d.content_len = byteUpto d.content.length d.content := by
        rw [byteUpto_of_length_le (Nat.le_refl _)]
        rfl
      rw [he]
      have ht : byteTake (byteUpto d.content.length d.content) d.content =
          d.content.take d.content.length := byteTake_byteUpto _ d.content
      have hs : byteUpto a d.content = byteUpto a (d.content.take d.content.length) := by
        rw [List.take_length]
      rw [ht, hs, byteDrop_byteUpto a (d.content.take d.content.length)]

/-! ### Helper lemmas: offset_at dispatch -/

theorem offset_at_of_glo_none {d : FullTextDocument} {line ch : Nat}
    (h : d.get_line_and_offset line = none) :
    d.offset_at ⟨line, ch⟩ =
      if d.line_count ≤ line then d.content_len else 0 := by
  unfold FullTextDocument.offset_at
  dsimp only
  rw [h]

theorem offset_at_of_glo_some {d : FullTextDocument} {line ch : Nat}
    {lt : List Char} {s : Nat} (h : d.get_line_and_offset line = some (lt, s)) :
    d.offset_at ⟨line, ch⟩ = offsetAtGo lt ch s 0 := by
  unfold FullTextDocument.offset_at
  dsimp only
  rw [h]

theorem line_lt_of_get_line_some {d : FullTextDocument} {line : Nat}
    {lt : List Char} (h : d.get_line line = some lt) : line < d.line_count := by
  by_contra hc
  have hnone : d.line_offsets.get? line = none := by
    refine List.get?_eq_none.mpr ?_
    unfold FullTextDocument.line_count at hc
    omega
  unfold FullTextDocument.get_line FullTextDocument.get_line_and_offset at h
  rw [hnone] at h
  simp at h

/-- Common clamp lemma: if the requested character is not the UTF-16 width
of any proper prefix of the line's text, `offset_at` returns the line's end
byte offset including its terminator — the next line's start entry, or
`content_len` on the last line. -/
theorem offset_at_fallthrough_clamp (d : FullTextDocument) (hwf : Wf d)
    (line ch : Nat) (lt : List Char) (hgl : d.get_line line = some lt)
    (hcond : ∀ j, j < lt.length → u16Upto j lt ≠ ch) :
    d.offset_at ⟨line, ch⟩ = (d.line_offsets.get? (line + 1)).getD d.content_len := by
  obtain ⟨a, b, hab, hbl, hga, hgb, hglo⟩ :=
    get_line_and_offset_wf d hwf line (line_lt_of_get_line_some hgl)
  have hlt2 : lt = (d.content.take b).drop a := by
    unfold FullTextDocument.get_line at hgl
    rw [hglo] at hgl
    simpa using hgl.symm
  rw [offset_at_of_glo_some hglo, hgb]
  rw [offsetAtGo_fallthrough ((d.content.take b).drop a) ch (byteUpto a d.content) 0 ?_]
  · rw [byteLen_span d.content hab]
    have := byteUpto_mono d.content hab
    omega
  · intro j hj
    rw [Nat.zero_add, ← hlt2]
    exact hcond j (by rw [hlt2]; exact hj)

/-! ### Claim theorems: concrete evaluations -/

/-- C1 (code bug): on the document `"foo\rbar"`, the well-formed ranged edit
inserting `"x"` at position `(0,4)` (both endpoints equal, so
`start_offset = end_offset = 4`) makes the incremental path of `update`
produce `line_offsets = [0, 5]`, while recomputing the table from the
resulting content `"foo\rxbar"` gives `[0, 4]`: the incremental path and the
from-scratch recomputation disagree, because `find_canonical_position` only
recognizes `\n` (not a lone `\r`) when deciding to re-express an
end-of-line position as the next line's start. -/
theorem c1_update_incremental_mismatch :
    c1Doc.update [c1Edit] 1 = Except.ok c1After ∧
    computedLineOffsets c1After.content true none = [0, 4] ∧
    c1After.line_offsets ≠ computedLineOffsets c1After.content true none :=
  ⟨rfl, rfl, by decide⟩

/-- C6 (code bug): the line-offset invariant is not preserved by ranged
edits.  Inserting `"z"` at position `(0,3)` of `"ab\rcd"` (the start of
line 1) leaves `line_offsets = [0, 4]`, but the logical lines of the
resulting content `"ab\rzcd"` start at `[0, 3]` (as the from-scratch scan
shows): entry 1 no longer points at the first byte of logical line 1. -/
theorem c6_invariant_broken_by_ranged_edit :
    c6Doc.update [c6Edit] 7 = Except.ok c6After ∧
    computedLineOffsets c6After.content true none = [0, 3] ∧
    c6After.line_offsets ≠ computedLineOffsets c6After.content true none :=
  ⟨rfl, rfl, by decide⟩

/-- C10 (code bug): `find_canonical_position` reaches its
`"could not determine canonical value"` panic branch on the in-bounds
position `(0,1)` of the document `"€a\nbb\nc"` (line 0 of 3, character 1 of
a line of UTF-16 length 3).  The position's byte offset is 3, and
`content.chars().nth(2)` — a character index probed with a byte offset —
happens to be the `\n` at byte offset 4, so the code wrongly takes the
after-newline branch and finds neither `line_offsets[0]` nor
`line_offsets[1]` equal to 3. -/
theorem c10_canonicalize_aborts :
    c10Doc.find_canonical_position ⟨0, 1⟩ = .error (.canonicalAbort ⟨0, 1⟩) ∧
    (0 : Nat) < c10Doc.line_count ∧
    (c10Doc.get_line 0).map utf16Size = some 3 :=
  ⟨rfl, by decide, rfl⟩

/-- C2 counterexample: on the document `"𐐷 yee"` the byte offset 1 is in
range (`content_len = 8`) but lies strictly inside the four-byte character
U+10437, so `position_at` rounds it down to `(0,0)` and `offset_at` maps
that back to 0, not 1: the round-trip fails for offsets that are not
character boundaries. -/
theorem c2_roundtrip_counterexample :
    smpDoc.offset_at (smpDoc.position_at 1) = 0 ∧
    smpDoc.offset_at (smpDoc.position_at 1) ≠ 1 ∧
    1 ≤ smpDoc.content_len :=
  ⟨rfl, by decide, by decide⟩

/-- C3 counterexample: on `"ab\ncd"`, line 0 has UTF-16 length 3 (its text
including the terminator is `"ab\n"`) and its end byte offset excluding the
terminator is 2; but `offset_at (0, 100)` returns 3 — the clamp goes to the
line's end *including* its terminator (the next line's start), not
excluding it. -/
theorem c3_clamp_counterexample :
    c3Doc.offset_at ⟨0, 100⟩ = 3 ∧ c3Doc.offset_at ⟨0, 100⟩ ≠ 2 :=
  ⟨rfl, by decide⟩

/-- C4 counterexample: on `"𐐷 yee"`, character value 1 falls between the
two UTF-16 code units of U+10437 (whose code point starts at byte offset
0), but `offset_at (0, 1)` returns 8 — the end of the line — because the
walk's accumulated width jumps from 0 to 2 and never equals 1, so the loop
falls through to `offset + line.len()`; it does not round down to the code
point's start. -/
theorem c4_mid_surrogate_counterexample :
    smpDoc.offset_at ⟨0, 1⟩ = 8 ∧ smpDoc.offset_at ⟨0, 1⟩ ≠ 0 :=
  ⟨rfl, by decide⟩

/-- C5 counterexample: the document built from
`"he\nllo\nworld\r\nfoo\rbar"` does *not* have line-start offsets
`[0, 3, 7, 13, 17, 19]` (the scan actually yields five lines starting at
`[0, 3, 7, 14, 18]`). -/
theorem c5_line_starts_counterexample :
    specDoc.line_offsets ≠ [0, 3, 7, 13, 17, 19] := by decide

/-! ### Claim theorems: update error contract, version, store -/

/-- C7: for every document and ranged edit whose two endpoints canonicalize
to offsets with `start_offset > end_offset`, `update` fails with the
contract-violation error carrying both canonical positions and both
resolved offsets (the `assert!` of `text_document.rs:80-85`); it does not
swap or clamp the endpoints and continue. -/
theorem c7_update_inverted_range_error
    (d : FullTextDocument) (r : Range) (rl : Option Nat) (text : List Char)
    (v : Int) (s e : Position) (so eo : Nat)
    (hs : d.find_canonical_position r.start = .ok (s, so))
    (he : d.find_canonical_position r.endPos = .ok (e, eo))
    (hlt : eo < so) :
    d.update [{ range := some r, range_length := rl, text := text }] v =
      .error (.rangeViolation s e so eo) := by
  simp only [FullTextDocument.update, List.foldlM, FullTextDocument.applyChange, hs, he]
  rw [if_neg (by omega)]
  rfl

/-- C7 witness: the spec's invalid-range scenario on the three-line document
`"he\nllo\nworld"`: start `(2,0)` resolves to offset 7, end `(1,0)` to
offset 3, and `update` returns the contract-violation error naming both. -/
theorem c7_update_inverted_range_error_witness :
    c7Doc.find_canonical_position ⟨2, 0⟩ = .ok (⟨2, 0⟩, 7) ∧
    c7Doc.find_canonical_position ⟨1, 0⟩ = .ok (⟨1, 0⟩, 3) ∧
    c7Doc.update [⟨some ⟨⟨2, 0⟩, ⟨1, 0⟩⟩, some 0, []⟩] 1 =
      .error (.rangeViolation ⟨2, 0⟩ ⟨1, 0⟩ 7 3) :=
  ⟨rfl, rfl,
    c7_update_inverted_range_error c7Doc ⟨⟨2, 0⟩, ⟨1, 0⟩⟩ (some 0) [] 1
      ⟨2, 0⟩ ⟨1, 0⟩ 7 3 rfl rfl (by omega)⟩

/-- C8: whenever `update` completes (returns `ok`), the resulting document's
version is exactly the caller-supplied `new_version`, and on an empty edit
list `update` returns the document unchanged except for the version — there
is no internal increment or comparison. -/
theorem c8_update_sets_version (d : FullTextDocument)
    (changes : List TextDocumentContentChangeEvent) (v : Int) :
    (∀ d2, d.update changes v = .ok d2 → d2.version = v) ∧
    d.update [] v = .ok { d with version := v } := by
  refine ⟨fun d2 h => ?_, rfl⟩
  unfold FullTextDocument.update at h
  cases hf : changes.foldlM FullTextDocument.applyChange d with
  | ok a => rw [hf] at h; simp only [Except.map, Except.ok.injEq] at h; rw [← h]
  | error e => rw [hf] at h; simp only [Except.map] at h; exact Except.noConfusion h

/-- C8 witness: an `update` with an empty edit list on a concrete document
returns it with only the version replaced, and that version is the supplied
value 42. -/
theorem c8_update_sets_version_witness :
    c3Doc.update [] 42 = .ok { c3Doc with version := 42 } ∧
    ({ c3Doc with version := 42 } : FullTextDocument).version = 42 :=
  ⟨(c8_update_sets_version c3Doc [] 42).2,
    (c8_update_sets_version c3Doc [] 42).1 _ (c8_update_sets_version c3Doc [] 42).2⟩

/-- C9: dispatching a change event whose document identifier is not in the
store is a silent no-op: `listen` reports the event handled (`true`),
returns no error, and the store — every entry of it — is unchanged. -/
theorem c9_change_unknown_uri_noop (store : TextDocuments) (uri : String)
    (changes : List TextDocumentContentChangeEvent) (v : Int)
    (h : store.docs.lookup uri = none) :
    store.listen (.didChange uri changes v) = .ok (store, true) := by
  simp only [TextDocuments.listen, h]

/-- C9 witness: a change for `"file://b"` against a store holding only
`"file://a"` leaves the store untouched and is reported handled. -/
theorem c9_change_unknown_uri_noop_witness :
    w9Store.docs.lookup "file://b" = none ∧
    w9Store.listen (.didChange "file://b" [] 9) = .ok (w9Store, true) :=
  ⟨rfl, c9_change_unknown_uri_noop w9Store "file://b" [] 9 rfl⟩

/-! ### Claim theorems: offset_at clamping -/

/-- C3 (amended): for every well-formed document, (1) a position whose line
is `≥ line_count` maps to `content_len`; (2) on an in-range line, a
character exceeding the line's UTF-16 length clamps to the line's end byte
offset *including* its terminator — i.e. the next line's start entry, or
`content_len` on the last line (not the end excluding the terminator, as
the original sentence said). -/
theorem c3_offset_at_clamps (d : FullTextDocument) (hwf : Wf d) :
    (∀ line ch, d.line_count ≤ line → d.offset_at ⟨line, ch⟩ = d.content_len) ∧
    (∀ line ch lt, d.get_line line = some lt → utf16Size lt < ch →
      d.offset_at ⟨line, ch⟩ =
        (d.line_offsets.get? (line + 1)).getD d.content_len) := by
  constructor
  · intro line ch hline
    have hnone : d.get_line_and_offset line = none := by
      unfold FullTextDocument.get_line_and_offset
      rw [List.get?_eq_none.mpr hline]
      rfl
    rw [offset_at_of_glo_none hnone, if_pos hline]
  · intro line ch lt hgl hch
    refine offset_at_fallthrough_clamp d hwf line ch lt hgl ?_
    intro j _ hj
    have h1 : u16Upto j lt ≤ utf16Size lt := u16Upto_le_utf16Size j lt
    omega

/-- C3 witness: on `"ab\ncd"` (well-formed by construction), line 5 maps to
`content_len = 5`, and character 100 on line 0 (whose text `"ab\n"` has
UTF-16 length 3) maps to the next line's start (byte 3). -/
theorem c3_offset_at_clamps_witness :
    c3Doc.offset_at ⟨5, 0⟩ = 5 ∧ c3Doc.offset_at ⟨0, 100⟩ = 3 := by
  constructor
  · rw [(c3_offset_at_clamps c3Doc rfl).1 5 0 (by decide)]
    decide
  · rw [(c3_offset_at_clamps c3Doc rfl).2 0 100 "ab\n".data rfl (by decide)]
    decide

/-- C4 (amended): for every well-formed document, a position whose character
value falls strictly between two consecutive cumulative UTF-16 widths of an
in-range line (in particular mid-surrogate-pair, where the width jumps by
two) is clamped by `offset_at` to the line's end byte offset — the next
line's start entry, or `content_len` on the last line — exactly like a
character beyond the line's UTF-16 length, and *not* to the byte offset of
the code point containing it. -/
theorem c4_mid_surrogate_clamps_to_line_end (d : FullTextDocument)
    (hwf : Wf d) (line ch : Nat) (lt : List Char)
    (hgl : d.get_line line = some lt) (k : Nat)
    (h1 : u16Upto k lt < ch) (h2 : ch < u16Upto (k + 1) lt) :
    d.offset_at ⟨line, ch⟩ =
      (d.line_offsets.get? (line + 1)).getD d.content_len := by
  refine offset_at_fallthrough_clamp d hwf line ch lt hgl ?_
  intro j _ hj
  by_cases hjk : j ≤ k
  · have := u16Upto_mono lt hjk
    omega
  · have : u16Upto (k + 1) lt ≤ u16Upto j lt := u16Upto_mono lt (by omega)
    omega

/-- C4 witness: on `"𐐷 yee"`, character 1 (inside U+10437's surrogate pair,
with `u16Upto 0 = 0 < 1 < 2 = u16Upto 1`) maps to the line-end clamp 8. -/
theorem c4_mid_surrogate_clamps_to_line_end_witness :
    smpDoc.offset_at ⟨0, 1⟩ = 8 := by
  rw [c4_mid_surrogate_clamps_to_line_end smpDoc rfl 0 1
    (Char.ofNat 0x10437 :: " yee".data) rfl 0 (by decide) (by decide)]
  decide

/-! ### Claim theorems: the offset/position round-trip -/

/-- Bridge between the direct and the optional table reads. -/
theorem getD_line_offsets (d : FullTextDocument) (i : Nat) :
    d.line_offsets.getD i 0 = (d.line_offsets.get? i).getD 0 :=
  List.getD_eq_getD_get? d.line_offsets 0 i

/-- For a well-formed document and a character-boundary offset inside the
byte span of line `L`, converting the byte delta to a UTF-16 character with
`line_offset_utf16` and back with `offset_at` returns the original offset. -/
theorem roundtrip_on_line (d : FullTextDocument) (hwf : Wf d) (L o : Nat)
    (hL : L < d.line_count)
    (hso : d.line_offsets.getD L 0 ≤ o)
    (heo : o ≤ (d.line_offsets.get? (L + 1)).getD d.content_len)
    (hb : CharBoundary d.content o) :
    d.offset_at ⟨L, line_offset_utf16 ((d.get_line L).getD [])
      (o - d.line_offsets.getD L 0)⟩ = o := by
  obtain ⟨a, b, hab, hbl, hga, hgb, hglo⟩ := get_line_and_offset_wf d hwf L hL
  obtain ⟨m, hml, hmo⟩ := hb
  have hsd : d.line_offsets.getD L 0 = byteUpto a d.content := by
    rw [getD_line_offsets, hga]
    rfl
  have hgl : d.get_line L = some ((d.content.take b).drop a) := by
    unfold FullTextDocument.get_line
    rw [hglo]
    rfl
  -- index inequalities from the offset inequalities
  have ham : a ≤ m := by
    have h1 : byteUpto a d.content ≤ byteUpto m d.content := by omega
    exact le_of_byteUpto_le (by omega) h1
  have hmb : m ≤ b := by
    rw [hgb] at heo
    have h1 : byteUpto m d.content ≤ byteUpto b d.content := by omega
    exact le_of_byteUpto_le hml h1
  have hlen : ((d.content.take b).drop a).length = b - a := by
    simp only [List.length_drop, List.length_take]
    omega
  have hk : m - a ≤ ((d.content.take b).drop a).length := by omega
  have hspan : byteUpto (m - a) ((d.content.take b).drop a) =
      byteUpto m d.content - byteUpto a d.content := byteUpto_span d.content ham hmb
  have hdelta : o - d.line_offsets.getD L 0 =
      byteUpto (m - a) ((d.content.take b).drop a) := by
    rw [hspan, hsd]
    omega
  -- the character produced by position_at's walk
  have hchar : line_offset_utf16 ((d.get_line L).getD [])
      (o - d.line_offsets.getD L 0) = u16Upto (m - a) ((d.content.take b).drop a) := by
    rw [hgl]
    show line_offset_utf16 ((d.content.take b).drop a) _ = _
    rw [hdelta]
    unfold line_offset_utf16
    have := lineOffsetUtf16Go_boundary ((d.content.take b).drop a) (m - a) 0 hk
    rwa [Nat.zero_add] at this
  rw [hchar, offset_at_of_glo_some hglo]
  have := offsetAtGo_boundary ((d.content.take b).drop a) (m - a)
    (byteUpto a d.content) 0 hk
  rw [Nat.zero_add] at this
  rw [this, hspan]
  have hmono := byteUpto_mono d.content ham
  omega

/-- The position produced by `position_at` for an in-range offset on a
well-formed document: some in-range line `L` whose span contains the offset,
with the character computed by `line_offset_utf16` from the byte delta. -/
theorem position_at_shape (d : FullTextDocument) (hwf : Wf d) (o : Nat)
    (ho : o ≤ d.content_len) :
    ∃ L, L < d.line_count ∧
      d.position_at o = ⟨L, line_offset_utf16 ((d.get_line L).getD [])
        (o - d.line_offsets.getD L 0)⟩ ∧
      d.line_offsets.getD L 0 ≤ o ∧
      o ≤ (d.line_offsets.get? (L + 1)).getD d.content_len := by
  have hmin : min o d.content_len = o := Nat.min_eq_left ho
  have hlen0 : 0 < d.line_count := wf_length_pos hwf
  have hgd0 : d.line_offsets.getD 0 0 = 0 := by
    rw [getD_line_offsets, wf_head hwf]
    rfl
  unfold FullTextDocument.position_at
  simp only [hmin]
  by_cases h1 : d.line_count = 1
  · rw [if_pos h1]
    refine ⟨0, by omega, ?_, by omega, ?_⟩
    · rw [hgd0, Nat.sub_zero]
    · have hnone : d.line_offsets.get? 1 = none := by
        refine List.get?_eq_none.mpr ?_
        unfold FullTextDocument.line_count at h1
        omega
      rw [hnone]
      exact ho
  · rw [if_neg h1]
    obtain ⟨hr1, hr2, hr3⟩ :=
      positionAtSearch_spec d.line_offsets o (wf_pairwise hwf)
    have hLC : d.line_offsets.length = d.line_count := rfl
    rw [hLC] at hr1 hr2 hr3
    by_cases h0 : positionAtSearch d.line_offsets o 0 d.line_count = 0
    · rw [if_pos h0]
      have hle : o ≤ d.line_offsets.getD 0 0 := hr3 0 (by omega) (by omega)
      have ho0 : o = 0 := by rw [hgd0] at hle; omega
      refine ⟨0, by omega, ?_, by omega, ?_⟩
      · rw [hgd0, Nat.sub_zero]
      · omega
    · rw [if_neg h0]
      refine ⟨positionAtSearch d.line_offsets o 0 d.line_count - 1, by omega, rfl,
        ?_, ?_⟩
      · have := hr2 (positionAtSearch d.line_offsets o 0 d.line_count - 1) (by omega)
        omega
      · by_cases hrl : positionAtSearch d.line_offsets o 0 d.line_count < d.line_count
        · have hrlen : positionAtSearch d.line_offsets o 0 d.line_count <
              d.line_offsets.length := hrl
          have hsome : d.line_offsets.get?
              (positionAtSearch d.line_offsets o 0 d.line_count - 1 + 1) =
              some d.line_offsets[positionAtSearch d.line_offsets o 0 d.line_count] := by
            rw [List.get?_eq_getElem?,
              show positionAtSearch d.line_offsets o 0 d.line_count - 1 + 1 =
                positionAtSearch d.line_offsets o 0 d.line_count by omega]
            exact List.getElem?_eq_getElem hrlen
          rw [hsome]
          have h3 := hr3 (positionAtSearch d.line_offsets o 0 d.line_count)
            (by omega) hrl
          rw [List.getD_eq_getElem d.line_offsets 0 hrlen] at h3
          exact h3
        · have hnone : d.line_offsets.get?
              (positionAtSearch d.line_offsets o 0 d.line_count - 1 + 1) = none := by
            refine List.get?_eq_none.mpr ?_
            show d.line_offsets.length ≤ _
            rw [hLC]
            omega
          rw [hnone]
          exact ho

/-- C2 (amended): for every well-formed document and every byte offset in
`[0, content_len]` that lies on a UTF-8 character boundary,
`offset_at (position_at o) = o`.  (Offsets strictly inside a multi-byte
character are rounded down by `position_at`, so only character-boundary
offsets can round-trip; see the counterexample.) -/
theorem c2_roundtrip_char_boundary (d : FullTextDocument) (hwf : Wf d)
    (o : Nat) (ho : o ≤ d.content_len) (hb : CharBoundary d.content o) :
    d.offset_at (d.position_at o) = o := by
  obtain ⟨L, hL, hpos, hso, heo⟩ := position_at_shape d hwf o ho
  rw [hpos]
  exact roundtrip_on_line d hwf L o hL hso heo hb

/-- C2 witness: on the two-line document `"aé\nb"` (where `é` is two UTF-8
bytes), offset 4 is the character boundary at the start of line 1's byte
span end … namely the boundary after `"aé\n"`; the round-trip returns 4. -/
theorem c2_roundtrip_char_boundary_witness :
    Wf w2Doc ∧ CharBoundary w2Doc.content 4 ∧
    w2Doc.offset_at (w2Doc.position_at 4) = 4 :=
  ⟨rfl, ⟨3, by decide, by decide⟩,
    c2_roundtrip_char_boundary w2Doc rfl 4 (by decide) ⟨3, by decide, by decide⟩⟩

/-! ### Claim theorem: the terminator rule and the example line starts -/

/-- C5 (amended): the scan follows the stated terminator rule — an offset is
emitted exactly after each `\n` and after each `\r` not immediately followed
by `\n`, so a `\r\n` pair is counted once — and the document built from
`"he\nllo\nworld\r\nfoo\rbar"` has line-start offsets `[0, 3, 7, 14, 18]`
(not `[0, 3, 7, 13, 17, 19]` as the original sentence said), with
`position_at 15` resolving to `(3, 1)`, inside the `"foo"` line (line 3,
whose text is `"foo\r"`). -/
theorem c5_terminator_rule_and_line_starts :
    (∀ (text : List Char) (idx x : Nat),
      x ∈ lineOffsetsGo text idx ↔
        ∃ k, k < text.length ∧ x = idx + byteUpto (k + 1) text ∧
          (text.get? k = some '\n' ∨
            (text.get? k = some '\r' ∧ text.get? (k + 1) ≠ some '\n'))) ∧
    specDoc.line_offsets = [0, 3, 7, 14, 18] ∧
    specDoc.position_at 15 = ⟨3, 1⟩ ∧
    specDoc.get_line 3 = some "foo\r".data :=
  ⟨lineOffsetsGo_mem_iff, by decide, rfl, rfl⟩
